import Mathlib

/-!
Shallow embedding of a delta-queue cooperative task scheduler (scheduler.c /
scheduler.h) and proofs about its operations.

The C scheduler keeps pending tasks in a singly linked list sorted by delta
(relative) delay; global state consists of the list head, a uint32 tick
counter, a uint32 auto-increment task-id counter, and a uint8 error register.
We model the task list as a `List TaskNode`, machine integers as `ℕ` with an
explicit `% 2 ^ 32` where uint32 overflow is observable (the tick counter and
the task-id counter; list delays stay below 2 ^ 32 on every computation the
code can reach because a node's cumulative delay never exceeds the uint32
delay argument it was registered with), callbacks as their pointer value
(`0` = NULL), and `malloc` success as an explicit `Bool` oracle.
-/

/-- Error code `ERROR_SCH_TOO_MANY_TASKS` from scheduler.h. -/
def ERROR_SCH_TOO_MANY_TASKS : ℕ := 1

/-- Error code `ERROR_SCH_CANNOT_DELETE_TASK` from scheduler.h. -/
def ERROR_SCH_CANNOT_DELETE_TASK : ℕ := 2

/-- Error code `ERROR_SCH_TASK_NOT_FOUND` from scheduler.h. -/
def ERROR_SCH_TASK_NOT_FOUND : ℕ := 3

/-- Sentinel `NO_TASK_ID` from scheduler.h. -/
def NO_TASK_ID : ℕ := 0

/-- Modulus of the C `uint32_t` type. -/
def UINT32_MOD : ℕ := 4294967296

/-- One `TaskNode` of the sorted linked list (the `next` pointer is the list
structure itself). `pTask` is the callback pointer value, `0` meaning NULL. -/
structure TaskNode where
  pTask : ℕ
  Delay : ℕ
  Period : ℕ
  TaskID : ℕ
  deriving DecidableEq

/-- The scheduler's global variables. -/
structure SchedState where
  g_TaskListHead : List TaskNode
  g_CurrentTick : ℕ
  g_NextTaskID : ℕ
  g_ErrorCode : ℕ
  deriving DecidableEq

/-- `SCH_Init`: the global state right after initialization (the C code frees
every node and resets all four globals, regardless of the previous state). -/
def SCH_Init : SchedState := ⟨[], 0, 1, 0⟩

/-- `SCH_Update` (scheduler.c lines 54-62): increment the tick counter and
decrement the head node's delay when the list is non-empty and that delay is
positive. -/
def SCH_Update (s : SchedState) : SchedState :=
  { s with
    g_CurrentTick := (s.g_CurrentTick + 1) % UINT32_MOD,
    g_TaskListHead :=
      match s.g_TaskListHead with
      | [] => []
      | h :: t => if 0 < h.Delay then { h with Delay := h.Delay - 1 } :: t else h :: t }

/-- The sorted-insert walk of `SCH_Add_Task` (scheduler.c lines 115-133):
`cur` is the node the C variable `current` points to, `rest` the nodes after
it, and `acc` the C variable `accumulatedTime`, i.e. the cumulative delay up
to and including `cur`. The walk advances while the next node keeps the
accumulated delay `≤ DELAY`, then links the new node after `cur` and takes
the new node's relative delay out of the follower's. -/
def insertWalk (pFunction PERIOD tid DELAY : ℕ) :
    TaskNode → List TaskNode → ℕ → List TaskNode
  | cur, [], acc => [cur, ⟨pFunction, DELAY - acc, PERIOD, tid⟩]
  | cur, nxt :: rest, acc =>
    if acc + nxt.Delay ≤ DELAY then
      cur :: insertWalk pFunction PERIOD tid DELAY nxt rest (acc + nxt.Delay)
    else
      cur :: ⟨pFunction, DELAY - acc, PERIOD, tid⟩ ::
        { nxt with Delay := nxt.Delay - (DELAY - acc) } :: rest

/-- The list-insertion step of `SCH_Add_Task` (scheduler.c lines 106-134):
insert at the head when the list is empty or `DELAY` is strictly below the
head's delay (absorbing `DELAY` out of the old head), otherwise run the walk
starting at the head with `accumulatedTime = head.Delay`. -/
def insertNode (q : List TaskNode) (pFunction DELAY PERIOD tid : ℕ) : List TaskNode :=
  match q with
  | [] => [⟨pFunction, DELAY, PERIOD, tid⟩]
  | h :: t =>
    if DELAY < h.Delay then
      ⟨pFunction, DELAY, PERIOD, tid⟩ :: { h with Delay := h.Delay - DELAY } :: t
    else
      insertWalk pFunction PERIOD tid DELAY h t h.Delay

/-- `SCH_Add_Task` (scheduler.c lines 78-137). `allocOk` models whether the
`malloc` call succeeds. Returns the new state and the returned task id. -/
def SCH_Add_Task (s : SchedState) (pFunction DELAY PERIOD : ℕ) (allocOk : Bool) :
    SchedState × ℕ :=
  if pFunction = 0 then
    ({ s with g_ErrorCode := ERROR_SCH_TOO_MANY_TASKS }, NO_TASK_ID)
  else if allocOk = false then
    ({ s with g_ErrorCode := ERROR_SCH_TOO_MANY_TASKS }, NO_TASK_ID)
  else
    ({ s with
        g_TaskListHead :=
          insertNode s.g_TaskListHead pFunction DELAY PERIOD s.g_NextTaskID,
        g_NextTaskID := (s.g_NextTaskID + 1) % UINT32_MOD },
      s.g_NextTaskID)

/-- The scan loop of `SCH_Delete_Task` (scheduler.c lines 228-254): unlink the
first node carrying `taskID`, donating its delay to the successor (the C code
has one branch for the head and one for inner nodes, both adding the removed
node's `Delay` to the follower); `none` when no node matches. -/
def deleteScan : List TaskNode → ℕ → Option (List TaskNode)
  | [], _ => none
  | cur :: rest, taskID =>
    if cur.TaskID = taskID then
      some (match rest with
        | [] => []
        | nxt :: rest2 => { nxt with Delay := nxt.Delay + cur.Delay } :: rest2)
    else
      (deleteScan rest taskID).map (cur :: ·)

/-- `SCH_Delete_Task` (scheduler.c lines 222-258): an empty list records
`ERROR_SCH_CANNOT_DELETE_TASK`, a fruitless scan records
`ERROR_SCH_TASK_NOT_FOUND`; the uint8 result is modelled as `Bool`. -/
def SCH_Delete_Task (s : SchedState) (taskID : ℕ) : SchedState × Bool :=
  match s.g_TaskListHead with
  | [] => ({ s with g_ErrorCode := ERROR_SCH_CANNOT_DELETE_TASK }, false)
  | _ :: _ =>
    match deleteScan s.g_TaskListHead taskID with
    | some q => ({ s with g_TaskListHead := q }, true)
    | none => ({ s with g_ErrorCode := ERROR_SCH_TASK_NOT_FOUND }, false)

/-- One iteration of the `SCH_Dispatch_Tasks` loop (scheduler.c lines 152-210)
after the due head `h` has been unlinked and its callback invoked (callbacks
are opaque to the scheduler state): a node with nonzero `Period` is re-added
with the same callback, period and id and with `DELAY = Period` when the
fresh `malloc` succeeds (the C code at lines 180-205 repeats the lines
106-134 insertion algorithm verbatim on the saved fields); otherwise the node
is simply dropped. -/
def dispatchBody (h : TaskNode) (t : List TaskNode) (allocOk : Bool) : List TaskNode :=
  if 0 < h.Period then
    if allocOk then insertNode t h.pTask h.Period h.Period h.TaskID else t
  else t

/-- The `SCH_Dispatch_Tasks` while-loop: pop the head as long as it exists
with delay zero. The loop terminates because every processed node has
cumulative delay 0 while a re-inserted node gets cumulative delay
`Period ≥ 1`, so the due prefix shrinks each iteration; `fuel` bounds the
iteration count, and the initial list length (used below) is always enough. -/
def dispatchLoop : ℕ → List Bool → List TaskNode → List TaskNode
  | 0, _, q => q
  | _ + 1, _, [] => []
  | fuel + 1, allocs, h :: t =>
    if h.Delay = 0 then
      dispatchLoop fuel allocs.tail (dispatchBody h t (allocs.headD true))
    else h :: t

/-- `SCH_Dispatch_Tasks` (scheduler.c lines 149-212). `allocs` is the oracle
of `malloc` outcomes for the successive reschedule attempts (exhausted
entries default to success). -/
def SCH_Dispatch_Tasks (s : SchedState) (allocs : List Bool) : SchedState :=
  { s with
    g_TaskListHead := dispatchLoop s.g_TaskListHead.length allocs s.g_TaskListHead }

/-- `SCH_Get_Current_Time` (scheduler.c lines 265-267). -/
def SCH_Get_Current_Time (s : SchedState) : ℕ := (s.g_CurrentTick * 10) % UINT32_MOD

/-- `SCH_Get_Error_Code` (scheduler.c lines 272-276): read and clear. -/
def SCH_Get_Error_Code (s : SchedState) : SchedState × ℕ :=
  ({ s with g_ErrorCode := 0 }, s.g_ErrorCode)

/-- Cumulative delays of a task list: entry `i` is `acc` plus the sum of
`Delay` over nodes `0..i`. `cums q 0` lists each node's absolute due time as
the delta-queue represents it. -/
def cums : List TaskNode → ℕ → List ℕ
  | [], _ => []
  | h :: t, acc => (acc + h.Delay) :: cums t (acc + h.Delay)

/-- Sum of the relative delays of a task list. -/
def sumDelays (q : List TaskNode) : ℕ := (q.map TaskNode.Delay).sum

/-- The task ids of a task list, in list order. -/
def ids (q : List TaskNode) : List ℕ := q.map TaskNode.TaskID

/-- Subtract `d` from the first node's delay (the delta-queue repair applied
to the node that follows an insertion point). -/
def reduceHead (d : ℕ) : List TaskNode → List TaskNode
  | [] => []
  | h :: t => { h with Delay := h.Delay - d } :: t

/-- One external scheduler operation, as in the claims about reachable
states: registration (with its malloc outcome), removal, and a timer tick. -/
inductive SchedOp where
  | add (pFunction DELAY PERIOD : ℕ) (allocOk : Bool)
  | del (taskID : ℕ)
  | tick
  deriving DecidableEq

/-- Apply one operation to the scheduler state, discarding return values. -/
def applyOp (s : SchedState) : SchedOp → SchedState
  | .add p d per a => (SCH_Add_Task s p d per a).1
  | .del tid => (SCH_Delete_Task s tid).1
  | .tick => SCH_Update s

/-- Run a sequence of operations from the freshly initialized state. -/
def runOps (ops : List SchedOp) : SchedState := ops.foldl applyOp SCH_Init

/-! ### Ghost instrumentation for the delta-queue invariant

Each queue node is paired with bookkeeping that the C code does not store:
the absolute delay it was registered with and how many effective ticks it has
seen. The ghost operations mirror the code operations step for step, so the
real queue is always the node-projection of the ghost queue. -/

/-- A task node together with verification bookkeeping: `requested` is the
DELAY argument of the SCH_Add_Task call that created the node, and
`effTicks` counts the SCH_Update calls since that registration at which the
queue head's delay was positive (a tick arriving while the head is already
due is absorbed and moves no node). -/
structure GNode where
  node : TaskNode
  requested : ℕ
  effTicks : ℕ

/-- Ghost mirror of `insertWalk`: the same recursion on the underlying
nodes, the new node carrying `requested = DELAY` and `effTicks = 0`. -/
def gInsertWalk (pFunction PERIOD tid DELAY : ℕ) :
    GNode → List GNode → ℕ → List GNode
  | cur, [], acc => [cur, ⟨⟨pFunction, DELAY - acc, PERIOD, tid⟩, DELAY, 0⟩]
  | cur, nxt :: rest, acc =>
    if acc + nxt.node.Delay ≤ DELAY then
      cur :: gInsertWalk pFunction PERIOD tid DELAY nxt rest (acc + nxt.node.Delay)
    else
      cur :: ⟨⟨pFunction, DELAY - acc, PERIOD, tid⟩, DELAY, 0⟩ ::
        { nxt with node := { nxt.node with Delay := nxt.node.Delay - (DELAY - acc) } } :: rest

/-- Ghost mirror of `insertNode`. -/
def gInsertNode (q : List GNode) (pFunction DELAY PERIOD tid : ℕ) : List GNode :=
  match q with
  | [] => [⟨⟨pFunction, DELAY, PERIOD, tid⟩, DELAY, 0⟩]
  | h :: t =>
    if DELAY < h.node.Delay then
      ⟨⟨pFunction, DELAY, PERIOD, tid⟩, DELAY, 0⟩ ::
        { h with node := { h.node with Delay := h.node.Delay - DELAY } } :: t
    else
      gInsertWalk pFunction PERIOD tid DELAY h t h.node.Delay

/-- Ghost mirror of `deleteScan`. -/
def gDeleteScan : List GNode → ℕ → Option (List GNode)
  | [], _ => none
  | cur :: rest, taskID =>
    if cur.node.TaskID = taskID then
      some (match rest with
        | [] => []
        | nxt :: rest2 =>
            { nxt with
              node := { nxt.node with Delay := nxt.node.Delay + cur.node.Delay } } :: rest2)
    else
      (gDeleteScan rest taskID).map (cur :: ·)

/-- Ghost mirror of the queue update in `SCH_Update`: when the head's delay
is positive it is decremented and every node's effective-tick count
advances; otherwise the tick is absorbed and no bookkeeping advances. -/
def gTick (q : List GNode) : List GNode :=
  match q with
  | [] => []
  | h :: t =>
    if 0 < h.node.Delay then
      { h with node := { h.node with Delay := h.node.Delay - 1 },
               effTicks := h.effTicks + 1 } ::
        t.map (fun g => { g with effTicks := g.effTicks + 1 })
    else h :: t

/-- Ghost scheduler state: the instrumented queue plus the id counter. -/
structure GState where
  queue : List GNode
  nextTaskID : ℕ

/-- Ghost mirror of `applyOp`. -/
def gApplyOp (gs : GState) : SchedOp → GState
  | .add p d per a =>
    if p = 0 then gs
    else if a = false then gs
    else ⟨gInsertNode gs.queue p d per gs.nextTaskID, (gs.nextTaskID + 1) % UINT32_MOD⟩
  | .del tid =>
    match gs.queue with
    | [] => gs
    | _ :: _ =>
      match gDeleteScan gs.queue tid with
      | some q => ⟨q, gs.nextTaskID⟩
      | none => gs
  | .tick => ⟨gTick gs.queue, gs.nextTaskID⟩

/-- Run a sequence of operations on the ghost state. -/
def gRunOps (ops : List SchedOp) : GState := ops.foldl gApplyOp ⟨[], 1⟩

/-- The underlying task nodes of a ghost queue. -/
def nodes (g : List GNode) : List TaskNode := g.map GNode.node

/-- The remaining absolute delays predicted by the ghost bookkeeping:
`requested - effTicks` for each node. -/
def gRemaining (g : List GNode) : List ℕ :=
  g.map (fun x => x.requested - x.effTicks)

/-- The delta-queue invariant over a ghost queue whose delays accumulate on
top of `acc`: the cumulative relative delays coincide with
`requested - effTicks` node by node, and no node has seen more effective
ticks than its requested delay. -/
def GInvAux (g : List GNode) (acc : ℕ) : Prop :=
  cums (nodes g) acc = gRemaining g ∧ ∀ x ∈ g, x.effTicks ≤ x.requested

/-! ### Bookkeeping for task-id claims -/

/-- Number of successful SCH_Add_Task calls in an operation sequence. -/
def countSuccAdds : List SchedOp → ℕ
  | [] => 0
  | .add p _ _ a :: rest => (if p ≠ 0 ∧ a = true then 1 else 0) + countSuccAdds rest
  | _ :: rest => countSuccAdds rest

/-- The task ids handed out by the successful SCH_Add_Task calls of an
operation sequence run from state `s`, in call order. -/
def assignedIds : SchedState → List SchedOp → List ℕ
  | _, [] => []
  | s, .add p d per a :: rest =>
    if p ≠ 0 ∧ a = true then
      (SCH_Add_Task s p d per a).2 :: assignedIds (applyOp s (.add p d per a)) rest
    else assignedIds (applyOp s (.add p d per a)) rest
  | s, op :: rest => assignedIds (applyOp s op) rest

/-- Id-counter invariant: every queued id is positive and below the counter,
the counter is at least 1, and queued ids are pairwise distinct. -/
def IdInv (s : SchedState) : Prop :=
  (∀ x ∈ ids s.g_TaskListHead, 0 < x ∧ x < s.g_NextTaskID) ∧
  1 ≤ s.g_NextTaskID ∧ (ids s.g_TaskListHead).Nodup

/-! ## Helper lemmas about deletion -/

theorem ids_cons (cur : TaskNode) (rest : List TaskNode) :
    ids (cur :: rest) = cur.TaskID :: ids rest := rfl

theorem deleteScan_not_mem (q : List TaskNode) (taskID : ℕ)
    (h : taskID ∉ ids q) : deleteScan q taskID = none := by
  induction q with
  | nil => rfl
  | cons cur rest ih =>
    rw [ids_cons] at h
    simp only [List.mem_cons, not_or] at h
    simp only [deleteScan]
    rw [if_neg (fun he => h.1 he.symm), ih h.2]
    rfl

theorem deleteTask_empty (s : SchedState) (taskID : ℕ) (h : s.g_TaskListHead = []) :
    SCH_Delete_Task s taskID =
      ({ s with g_ErrorCode := ERROR_SCH_CANNOT_DELETE_TASK }, false) := by
  simp only [SCH_Delete_Task, h]

theorem deleteTask_not_found_aux (s : SchedState) (taskID : ℕ)
    (hne : s.g_TaskListHead ≠ []) (h : taskID ∉ ids s.g_TaskListHead) :
    SCH_Delete_Task s taskID =
      ({ s with g_ErrorCode := ERROR_SCH_TASK_NOT_FOUND }, false) := by
  obtain ⟨a, b, hab⟩ := List.exists_cons_of_ne_nil hne
  have hscan := deleteScan_not_mem s.g_TaskListHead taskID h
  rw [hab] at hscan
  simp only [SCH_Delete_Task, hab, hscan]

/-! ## Claim theorems: error handling and the tick frame -/

theorem addTask_failure_eq (s : SchedState) (pFunction DELAY PERIOD : ℕ)
    (allocOk : Bool) (hfail : pFunction = 0 ∨ allocOk = false) :
    SCH_Add_Task s pFunction DELAY PERIOD allocOk =
      ({ s with g_ErrorCode := ERROR_SCH_TOO_MANY_TASKS }, NO_TASK_ID) := by
  by_cases hp : pFunction = 0
  · simp [SCH_Add_Task, hp]
  · rcases hfail with h | h
    · exact absurd h hp
    · simp [SCH_Add_Task, hp, h]

/-- Claim C4 (confirmed): a failing SCH_Add_Task (null callback or allocation
failure) returns the sentinel id 0, records the ERROR_SCH_TOO_MANY_TASKS
error, and leaves the queue, the tick counter and the next-task-id counter
unchanged (the returned state differs from the input only in the error
register). -/
theorem addTask_failure_atomic (s : SchedState) (pFunction DELAY PERIOD : ℕ)
    (allocOk : Bool) (hfail : pFunction = 0 ∨ allocOk = false) :
    SCH_Add_Task s pFunction DELAY PERIOD allocOk =
      ({ s with g_ErrorCode := ERROR_SCH_TOO_MANY_TASKS }, NO_TASK_ID) :=
  addTask_failure_eq s pFunction DELAY PERIOD allocOk hfail

theorem addTask_failure_atomic_witness :
    SCH_Add_Task SCH_Init 0 5 7 true =
      ({ SCH_Init with g_ErrorCode := ERROR_SCH_TOO_MANY_TASKS }, NO_TASK_ID) :=
  addTask_failure_atomic SCH_Init 0 5 7 true (Or.inl rfl)

/-- Claim C5 (confirmed): SCH_Update increments the tick counter by one
(modulo 2^32, the uint32 wraparound the specification accepts) and touches at
most the head node of the queue: when the queue is non-empty and the head's
delay is positive the head's delay is decremented by one and the tail is
unchanged; when the queue is empty or the head's delay is zero the queue is
unchanged; the id counter and the error register are never touched. -/
theorem update_tick_frame (s : SchedState) :
    (SCH_Update s).g_CurrentTick = (s.g_CurrentTick + 1) % UINT32_MOD ∧
    (SCH_Update s).g_NextTaskID = s.g_NextTaskID ∧
    (SCH_Update s).g_ErrorCode = s.g_ErrorCode ∧
    (s.g_TaskListHead = [] → (SCH_Update s).g_TaskListHead = []) ∧
    (∀ h t, s.g_TaskListHead = h :: t →
      (0 < h.Delay →
        (SCH_Update s).g_TaskListHead = { h with Delay := h.Delay - 1 } :: t) ∧
      (h.Delay = 0 → (SCH_Update s).g_TaskListHead = h :: t)) := by
  refine ⟨rfl, rfl, rfl, fun h0 => ?_, fun h t ht => ⟨fun hd => ?_, fun hd => ?_⟩⟩
  · simp [SCH_Update, h0]
  · simp [SCH_Update, ht, hd]
  · simp [SCH_Update, ht, hd]

theorem update_tick_frame_witness :
    (SCH_Update ⟨[⟨1, 2, 3, 4⟩], 0, 5, 0⟩).g_TaskListHead = [⟨1, 1, 3, 4⟩] :=
  (((update_tick_frame ⟨[⟨1, 2, 3, 4⟩], 0, 5, 0⟩).2.2.2.2 ⟨1, 2, 3, 4⟩ [] rfl).1
    (by decide)).trans (by decide)

/-- Claim C7 (confirmed): calling SCH_Delete_Task with a task id not present
in the queue returns failure, records a nonzero error code, and mutates
nothing but the error register: queue, tick counter and id counter are
exactly as before. -/
theorem deleteTask_not_found_no_mutation (s : SchedState) (taskID : ℕ)
    (h : taskID ∉ ids s.g_TaskListHead) :
    (SCH_Delete_Task s taskID).2 = false ∧
    (SCH_Delete_Task s taskID).1.g_TaskListHead = s.g_TaskListHead ∧
    (SCH_Delete_Task s taskID).1.g_ErrorCode ≠ 0 ∧
    (SCH_Delete_Task s taskID).1.g_CurrentTick = s.g_CurrentTick ∧
    (SCH_Delete_Task s taskID).1.g_NextTaskID = s.g_NextTaskID := by
  by_cases he : s.g_TaskListHead = []
  · rw [deleteTask_empty s taskID he]
    exact ⟨rfl, rfl, by simp [ERROR_SCH_CANNOT_DELETE_TASK], rfl, rfl⟩
  · rw [deleteTask_not_found_aux s taskID he h]
    exact ⟨rfl, rfl, by simp [ERROR_SCH_TASK_NOT_FOUND], rfl, rfl⟩

theorem deleteTask_not_found_no_mutation_witness :
    (SCH_Delete_Task ⟨[⟨1, 5, 0, 3⟩], 2, 4, 0⟩ 9).2 = false ∧
    (SCH_Delete_Task ⟨[⟨1, 5, 0, 3⟩], 2, 4, 0⟩ 9).1.g_TaskListHead = [⟨1, 5, 0, 3⟩] ∧
    (SCH_Delete_Task ⟨[⟨1, 5, 0, 3⟩], 2, 4, 0⟩ 9).1.g_ErrorCode ≠ 0 ∧
    (SCH_Delete_Task ⟨[⟨1, 5, 0, 3⟩], 2, 4, 0⟩ 9).1.g_CurrentTick = 2 ∧
    (SCH_Delete_Task ⟨[⟨1, 5, 0, 3⟩], 2, 4, 0⟩ 9).1.g_NextTaskID = 4 :=
  deleteTask_not_found_no_mutation ⟨[⟨1, 5, 0, 3⟩], 2, 4, 0⟩ 9 (by decide)

/-- Claim C8 (confirmed): SCH_Get_Error_Code returns the current error code
and clears the register, so an immediate second call with no intervening
failure returns 0; nothing else in the state is touched. -/
theorem errorCode_read_and_clear (s : SchedState) :
    (SCH_Get_Error_Code s).2 = s.g_ErrorCode ∧
    (SCH_Get_Error_Code s).1.g_ErrorCode = 0 ∧
    (SCH_Get_Error_Code (SCH_Get_Error_Code s).1).2 = 0 ∧
    (SCH_Get_Error_Code s).1.g_TaskListHead = s.g_TaskListHead ∧
    (SCH_Get_Error_Code s).1.g_CurrentTick = s.g_CurrentTick ∧
    (SCH_Get_Error_Code s).1.g_NextTaskID = s.g_NextTaskID :=
  ⟨rfl, rfl, rfl, rfl, rfl, rfl⟩

/-- Claim C10 (confirmed): SCH_Delete_Task records
ERROR_SCH_CANNOT_DELETE_TASK = 2 when called on an empty queue and the
distinct code ERROR_SCH_TASK_NOT_FOUND = 3 when the id is missing from a
non-empty queue; both calls return failure and leave everything but the
error register unchanged. -/
theorem deleteTask_two_error_codes (s : SchedState) (taskID : ℕ) :
    ERROR_SCH_CANNOT_DELETE_TASK = 2 ∧ ERROR_SCH_TASK_NOT_FOUND = 3 ∧
    (s.g_TaskListHead = [] →
      SCH_Delete_Task s taskID =
        ({ s with g_ErrorCode := ERROR_SCH_CANNOT_DELETE_TASK }, false)) ∧
    (s.g_TaskListHead ≠ [] → taskID ∉ ids s.g_TaskListHead →
      SCH_Delete_Task s taskID =
        ({ s with g_ErrorCode := ERROR_SCH_TASK_NOT_FOUND }, false)) :=
  ⟨rfl, rfl, deleteTask_empty s taskID, deleteTask_not_found_aux s taskID⟩

theorem deleteTask_two_error_codes_witness :
    SCH_Delete_Task ⟨[], 0, 1, 0⟩ 5 =
      ({ g_TaskListHead := [], g_CurrentTick := 0, g_NextTaskID := 1,
         g_ErrorCode := ERROR_SCH_CANNOT_DELETE_TASK }, false) :=
  (deleteTask_two_error_codes ⟨[], 0, 1, 0⟩ 5).2.2.1 rfl

/-! ## Characterization of the sorted insertion position -/

theorem insertWalk_split (pFunction PERIOD tid DELAY : ℕ) :
    ∀ (rest : List TaskNode) (cur : TaskNode) (acc : ℕ), acc ≤ DELAY →
      ∀ k, k = ((cums rest acc).takeWhile (fun c => decide (c ≤ DELAY))).length →
      acc + sumDelays (rest.take k) ≤ DELAY ∧
      insertWalk pFunction PERIOD tid DELAY cur rest acc =
        cur :: (rest.take k ++
          ⟨pFunction, DELAY - (acc + sumDelays (rest.take k)), PERIOD, tid⟩ ::
            reduceHead (DELAY - (acc + sumDelays (rest.take k))) (rest.drop k)) := by
  intro rest
  induction rest with
  | nil =>
    intro cur acc hacc k hk
    simp only [cums, List.takeWhile_nil, List.length_nil] at hk
    subst hk
    simp [insertWalk, sumDelays, reduceHead, hacc]
  | cons nxt rest2 ih =>
    intro cur acc hacc k hk
    by_cases hc : acc + nxt.Delay ≤ DELAY
    · rw [cums] at hk
      simp only [List.takeWhile_cons, decide_eq_true_eq] at hk
      rw [if_pos hc, List.length_cons] at hk
      subst hk
      obtain ⟨ih1, ih2⟩ := ih nxt (acc + nxt.Delay) hc
        ((cums rest2 (acc + nxt.Delay)).takeWhile (fun c => decide (c ≤ DELAY))).length rfl
      constructor
      · simpa [List.take_succ_cons, sumDelays, Nat.add_assoc] using ih1
      · rw [insertWalk, if_pos hc, ih2]
        simp [List.take_succ_cons, List.drop_succ_cons, List.cons_append,
          sumDelays, Nat.add_assoc]
    · rw [cums] at hk
      simp only [List.takeWhile_cons, decide_eq_true_eq] at hk
      rw [if_neg hc, List.length_nil] at hk
      subst hk
      constructor
      · simpa [sumDelays] using hacc
      · rw [insertWalk, if_neg hc]
        simp [sumDelays, reduceHead]

theorem insertNode_split (q : List TaskNode) (pFunction DELAY PERIOD tid k : ℕ)
    (hk : k = ((cums q 0).takeWhile (fun c => decide (c ≤ DELAY))).length) :
    sumDelays (q.take k) ≤ DELAY ∧
    insertNode q pFunction DELAY PERIOD tid =
      q.take k ++ ⟨pFunction, DELAY - sumDelays (q.take k), PERIOD, tid⟩ ::
        reduceHead (DELAY - sumDelays (q.take k)) (q.drop k) := by
  cases q with
  | nil =>
    simp only [cums, List.takeWhile_nil, List.length_nil] at hk
    subst hk
    simp [insertNode, sumDelays, reduceHead]
  | cons h t =>
    by_cases hlt : DELAY < h.Delay
    · have hneg : ¬ (0 + h.Delay ≤ DELAY) := by omega
      rw [cums] at hk
      simp only [List.takeWhile_cons, decide_eq_true_eq] at hk
      rw [if_neg hneg, List.length_nil] at hk
      subst hk
      constructor
      · simp [sumDelays]
      · rw [insertNode, if_pos hlt]
        simp [sumDelays, reduceHead]
    · have hpos : 0 + h.Delay ≤ DELAY := by omega
      rw [cums] at hk
      simp only [List.takeWhile_cons, decide_eq_true_eq] at hk
      rw [if_pos hpos, List.length_cons, Nat.zero_add] at hk
      subst hk
      obtain ⟨w1, w2⟩ := insertWalk_split pFunction PERIOD tid DELAY t h h.Delay
        (by omega) ((cums t h.Delay).takeWhile (fun c => decide (c ≤ DELAY))).length rfl
      constructor
      · simpa [List.take_succ_cons, sumDelays] using w1
      · rw [insertNode, if_neg hlt, w2]
        simp [List.take_succ_cons, List.drop_succ_cons, List.cons_append, sumDelays]

/-! ## Consequences of the characterization: ids, lengths, membership -/

theorem ids_append (a b : List TaskNode) : ids (a ++ b) = ids a ++ ids b := by
  simp [ids]

theorem ids_reduceHead (d : ℕ) (q : List TaskNode) : ids (reduceHead d q) = ids q := by
  cases q <;> rfl

theorem insertWalk_length (pFunction PERIOD tid DELAY : ℕ) :
    ∀ (rest : List TaskNode) (cur : TaskNode) (acc : ℕ),
      (insertWalk pFunction PERIOD tid DELAY cur rest acc).length = rest.length + 2 := by
  intro rest
  induction rest with
  | nil => intro cur acc; rfl
  | cons nxt rest2 ih =>
    intro cur acc
    rw [insertWalk]
    by_cases hc : acc + nxt.Delay ≤ DELAY
    · rw [if_pos hc]
      simp [ih]
    · rw [if_neg hc]
      simp

theorem insertNode_length (q : List TaskNode) (pFunction DELAY PERIOD tid : ℕ) :
    (insertNode q pFunction DELAY PERIOD tid).length = q.length + 1 := by
  cases q with
  | nil => rfl
  | cons h t =>
    rw [insertNode]
    by_cases hlt : DELAY < h.Delay
    · rw [if_pos hlt]
      simp
    · rw [if_neg hlt, insertWalk_length]
      simp

theorem ids_insertNode_perm (q : List TaskNode) (pFunction DELAY PERIOD tid : ℕ) :
    (ids (insertNode q pFunction DELAY PERIOD tid)).Perm (tid :: ids q) := by
  obtain ⟨-, h2⟩ := insertNode_split q pFunction DELAY PERIOD tid
    ((cums q 0).takeWhile (fun c => decide (c ≤ DELAY))).length rfl
  rw [h2, ids_append]
  have hmid : ids (⟨pFunction,
      DELAY - sumDelays (q.take ((cums q 0).takeWhile (fun c => decide (c ≤ DELAY))).length),
      PERIOD, tid⟩ ::
        reduceHead (DELAY - sumDelays
            (q.take ((cums q 0).takeWhile (fun c => decide (c ≤ DELAY))).length))
          (q.drop ((cums q 0).takeWhile (fun c => decide (c ≤ DELAY))).length)) =
      tid :: ids (q.drop ((cums q 0).takeWhile (fun c => decide (c ≤ DELAY))).length) := by
    rw [ids_cons, ids_reduceHead]
  rw [hmid]
  refine List.perm_middle.trans ?_
  rw [← ids_append, List.take_append_drop]

theorem mem_ids_insertNode_iff (q : List TaskNode) (pFunction DELAY PERIOD tid x : ℕ) :
    x ∈ ids (insertNode q pFunction DELAY PERIOD tid) ↔ x = tid ∨ x ∈ ids q := by
  rw [(ids_insertNode_perm q pFunction DELAY PERIOD tid).mem_iff, List.mem_cons]

theorem nodup_ids_insertNode (q : List TaskNode) (pFunction DELAY PERIOD tid : ℕ)
    (h : (ids q).Nodup) (hx : tid ∉ ids q) :
    (ids (insertNode q pFunction DELAY PERIOD tid)).Nodup :=
  ((ids_insertNode_perm q pFunction DELAY PERIOD tid).nodup_iff).mpr (by simp [h, hx])

/-! ## Claim C2: insertion tie-break -/

/-- Claim C2 (counterexample): with a single queued node of cumulative delay
5, adding a task with delay 5 does NOT place the new node (id 2) immediately
before the first node whose cumulative delay is ≥ 5 — that node sits at
position 0, yet the new node lands after it, at the tail; the queue the
claim's rule would produce is explicitly different. -/
theorem addTask_tie_break_cx :
    (SCH_Add_Task ⟨[⟨1, 5, 0, 1⟩], 0, 2, 0⟩ 1 5 0 true).1.g_TaskListHead =
      [⟨1, 5, 0, 1⟩, ⟨1, 0, 0, 2⟩] ∧
    cums [⟨1, 5, 0, 1⟩] 0 = [5] ∧
    (SCH_Add_Task ⟨[⟨1, 5, 0, 1⟩], 0, 2, 0⟩ 1 5 0 true).1.g_TaskListHead ≠
      ⟨1, 5, 0, 2⟩ :: reduceHead 5 [⟨1, 5, 0, 1⟩] := by
  decide

/-- Claim C2 (corrected, amended): a successful SCH_Add_Task inserts the new
node immediately before the first node whose cumulative delay is STRICTLY
GREATER than DELAY: the preserved prefix `take k` consists exactly of the
nodes with cumulative delay ≤ DELAY (`k` being the length of the
takeWhile-(≤ DELAY) prefix of the cumulative-delay list), the new node gets
relative delay DELAY minus the prefix's delay sum, and the follower's
relative delay is reduced by that amount. Ties therefore place the new node
AFTER existing equal-deadline nodes, not before them. -/
theorem addTask_insert_position (s : SchedState) (pFunction DELAY PERIOD k : ℕ)
    (hp : pFunction ≠ 0)
    (hk : k = ((cums s.g_TaskListHead 0).takeWhile (fun c => decide (c ≤ DELAY))).length) :
    sumDelays (s.g_TaskListHead.take k) ≤ DELAY ∧
    (SCH_Add_Task s pFunction DELAY PERIOD true).1.g_TaskListHead =
      s.g_TaskListHead.take k ++
        ⟨pFunction, DELAY - sumDelays (s.g_TaskListHead.take k), PERIOD, s.g_NextTaskID⟩ ::
          reduceHead (DELAY - sumDelays (s.g_TaskListHead.take k))
            (s.g_TaskListHead.drop k) := by
  obtain ⟨h1, h2⟩ := insertNode_split s.g_TaskListHead pFunction DELAY PERIOD
    s.g_NextTaskID k hk
  refine ⟨h1, ?_⟩
  simp only [SCH_Add_Task, if_neg hp]
  simpa using h2

theorem addTask_insert_position_witness :
    sumDelays (([⟨1, 3, 0, 1⟩, ⟨1, 4, 0, 2⟩] : List TaskNode).take 1) ≤ 5 ∧
    (SCH_Add_Task ⟨[⟨1, 3, 0, 1⟩, ⟨1, 4, 0, 2⟩], 0, 7, 0⟩ 1 5 0 true).1.g_TaskListHead =
      ([⟨1, 3, 0, 1⟩, ⟨1, 4, 0, 2⟩] : List TaskNode).take 1 ++
        ⟨1, 5 - sumDelays (([⟨1, 3, 0, 1⟩, ⟨1, 4, 0, 2⟩] : List TaskNode).take 1), 0, 7⟩ ::
          reduceHead (5 - sumDelays (([⟨1, 3, 0, 1⟩, ⟨1, 4, 0, 2⟩] : List TaskNode).take 1))
            (([⟨1, 3, 0, 1⟩, ⟨1, 4, 0, 2⟩] : List TaskNode).drop 1) :=
  addTask_insert_position ⟨[⟨1, 3, 0, 1⟩, ⟨1, 4, 0, 2⟩], 0, 7, 0⟩ 1 5 0 1
    (by decide) (by decide)

/-! ## Cumulative-delay arithmetic -/

theorem cums_ge (q : List TaskNode) : ∀ (acc : ℕ), ∀ c ∈ cums q acc, acc ≤ c := by
  induction q with
  | nil => intro acc c hc; simp [cums] at hc
  | cons h t ih =>
    intro acc c hc
    rw [cums] at hc
    rcases List.mem_cons.mp hc with rfl | hc
    · omega
    · have := ih (acc + h.Delay) c hc
      omega

theorem cums_sub_one (q : List TaskNode) :
    ∀ (acc : ℕ), 1 ≤ acc → cums q (acc - 1) = (cums q acc).map (fun c => c - 1) := by
  induction q with
  | nil => intro acc _; rfl
  | cons h t ih =>
    intro acc ha
    rw [cums, cums, List.map_cons]
    have h1 : acc - 1 + h.Delay = acc + h.Delay - 1 := by omega
    rw [h1, ih (acc + h.Delay) (by omega)]

/-! ## Ghost projection lemmas -/

theorem nodes_nil : nodes [] = [] := rfl

theorem nodes_cons (g : GNode) (t : List GNode) : nodes (g :: t) = g.node :: nodes t := rfl

theorem nodes_gInsertWalk (pFunction PERIOD tid DELAY : ℕ) :
    ∀ (rest : List GNode) (cur : GNode) (acc : ℕ),
      nodes (gInsertWalk pFunction PERIOD tid DELAY cur rest acc) =
        insertWalk pFunction PERIOD tid DELAY cur.node (nodes rest) acc := by
  intro rest
  induction rest with
  | nil => intro cur acc; rfl
  | cons nxt rest2 ih =>
    intro cur acc
    rw [nodes_cons, gInsertWalk, insertWalk]
    by_cases hc : acc + nxt.node.Delay ≤ DELAY
    · rw [if_pos hc, if_pos hc, nodes_cons, ih]
    · rw [if_neg hc, if_neg hc]
      rfl

theorem nodes_gInsertNode (q : List GNode) (pFunction DELAY PERIOD tid : ℕ) :
    nodes (gInsertNode q pFunction DELAY PERIOD tid) =
      insertNode (nodes q) pFunction DELAY PERIOD tid := by
  cases q with
  | nil => rfl
  | cons h t =>
    rw [nodes_cons, gInsertNode, insertNode]
    by_cases hlt : DELAY < h.node.Delay
    · rw [if_pos hlt, if_pos hlt]
      rfl
    · rw [if_neg hlt, if_neg hlt, nodes_gInsertWalk]

theorem nodes_gDeleteScan (taskID : ℕ) :
    ∀ (q : List GNode),
      deleteScan (nodes q) taskID = (gDeleteScan q taskID).map nodes := by
  intro q
  induction q with
  | nil => rfl
  | cons cur rest ih =>
    rw [nodes_cons]
    simp only [deleteScan, gDeleteScan]
    by_cases hid : cur.node.TaskID = taskID
    · rw [if_pos hid, if_pos hid]
      cases rest with
      | nil => rfl
      | cons nxt rest2 => rfl
    · rw [if_neg hid, if_neg hid, ih]
      cases gDeleteScan rest taskID with
      | none => rfl
      | some r => rfl

theorem nodes_map_bumpEff (t : List GNode) :
    nodes (t.map (fun g => { g with effTicks := g.effTicks + 1 })) = nodes t := by
  induction t with
  | nil => rfl
  | cons a t ih => rw [List.map_cons, nodes_cons, nodes_cons, ih]

/-! ## Ghost invariant preservation -/

theorem gRemaining_cons (g : GNode) (t : List GNode) :
    gRemaining (g :: t) = (g.requested - g.effTicks) :: gRemaining t := rfl

theorem gInsertWalk_inv (pFunction PERIOD tid DELAY : ℕ) :
    ∀ (rest : List GNode) (cur : GNode) (A : ℕ),
      A + cur.node.Delay ≤ DELAY →
      GInvAux (cur :: rest) A →
      GInvAux (gInsertWalk pFunction PERIOD tid DELAY cur rest (A + cur.node.Delay)) A := by
  intro rest
  induction rest with
  | nil =>
    intro cur A hle hinv
    obtain ⟨hc, hm⟩ := hinv
    rw [nodes_cons, cums, gRemaining_cons] at hc
    simp only [List.cons.injEq] at hc
    constructor
    · rw [gInsertWalk, nodes_cons, nodes_cons, cums, cums, gRemaining_cons, gRemaining_cons]
      simp only [List.cons.injEq]
      exact ⟨hc.1, by omega, rfl⟩
    · intro x hx
      rw [gInsertWalk] at hx
      rcases List.mem_cons.mp hx with rfl | hx
      · exact hm x (List.mem_cons_self x [])
      · rcases List.mem_cons.mp hx with rfl | hx
        · exact Nat.zero_le _
        · exact absurd hx (List.not_mem_nil x)
  | cons nxt rest2 ih =>
    intro cur A hle hinv
    obtain ⟨hc, hm⟩ := hinv
    rw [nodes_cons, cums, gRemaining_cons] at hc
    simp only [List.cons.injEq] at hc
    by_cases hcc : A + cur.node.Delay + nxt.node.Delay ≤ DELAY
    · rw [gInsertWalk, if_pos hcc]
      have hinv2 : GInvAux (nxt :: rest2) (A + cur.node.Delay) :=
        ⟨hc.2, fun x hx => hm x (List.mem_cons_of_mem cur hx)⟩
      obtain ⟨hr1, hr2⟩ := ih nxt (A + cur.node.Delay) hcc hinv2
      constructor
      · rw [nodes_cons, cums, gRemaining_cons, hr1]
        simp only [List.cons.injEq]
        exact ⟨hc.1, trivial⟩
      · intro x hx
        rcases List.mem_cons.mp hx with rfl | hx
        · exact hm x (List.mem_cons_self x (nxt :: rest2))
        · exact hr2 x hx
    · rw [gInsertWalk, if_neg hcc]
      rw [nodes_cons, cums, gRemaining_cons] at hc
      simp only [List.cons.injEq] at hc
      obtain ⟨h1, h21, h22⟩ := hc
      constructor
      · simp only [nodes_cons, cums, gRemaining_cons]
        have k1 : A + cur.node.Delay + (DELAY - (A + cur.node.Delay)) = DELAY := by omega
        rw [k1]
        have k2 : DELAY + (nxt.node.Delay - (DELAY - (A + cur.node.Delay))) =
            A + cur.node.Delay + nxt.node.Delay := by omega
        rw [k2]
        simp only [List.cons.injEq]
        exact ⟨h1, by omega, h21, h22⟩
      · intro x hx
        rcases List.mem_cons.mp hx with rfl | hx
        · exact hm x (List.mem_cons_self x (nxt :: rest2))
        · rcases List.mem_cons.mp hx with rfl | hx
          · exact Nat.zero_le _
          · rcases List.mem_cons.mp hx with rfl | hx
            · exact hm nxt (List.mem_cons_of_mem cur (List.mem_cons_self nxt rest2))
            · exact hm x (List.mem_cons_of_mem cur (List.mem_cons_of_mem nxt hx))

theorem gInsertNode_inv (pFunction DELAY PERIOD tid : ℕ) (q : List GNode)
    (hinv : GInvAux q 0) :
    GInvAux (gInsertNode q pFunction DELAY PERIOD tid) 0 := by
  cases q with
  | nil =>
    constructor
    · rw [gInsertNode, nodes_cons, cums, gRemaining_cons]
      simp [nodes, gRemaining, cums]
    · intro x hx
      rw [gInsertNode] at hx
      rcases List.mem_cons.mp hx with rfl | hx
      · exact Nat.zero_le _
      · exact absurd hx (List.not_mem_nil x)
  | cons h t =>
    rw [gInsertNode]
    by_cases hlt : DELAY < h.node.Delay
    · obtain ⟨hc, hm⟩ := hinv
      rw [nodes_cons, cums, gRemaining_cons, Nat.zero_add] at hc
      simp only [List.cons.injEq] at hc
      rw [if_pos hlt]
      constructor
      · rw [nodes_cons, nodes_cons, cums, cums, gRemaining_cons, gRemaining_cons,
          Nat.zero_add]
        have k1 : DELAY + (h.node.Delay - DELAY) = h.node.Delay := by omega
        rw [k1]
        simp only [List.cons.injEq]
        exact ⟨by omega, hc.1, hc.2⟩
      · intro x hx
        rcases List.mem_cons.mp hx with rfl | hx
        · exact Nat.zero_le _
        · rcases List.mem_cons.mp hx with rfl | hx
          · exact hm h (List.mem_cons_self h t)
          · exact hm x (List.mem_cons_of_mem h hx)
    · rw [if_neg hlt]
      have hle : 0 + h.node.Delay ≤ DELAY := by omega
      have hw := gInsertWalk_inv pFunction PERIOD tid DELAY t h 0 hle hinv
      rw [Nat.zero_add] at hw
      exact hw

theorem gDeleteScan_inv :
    ∀ (q : List GNode) (taskID : ℕ) (A : ℕ) (q' : List GNode),
      gDeleteScan q taskID = some q' → GInvAux q A → GInvAux q' A := by
  intro q
  induction q with
  | nil =>
    intro taskID A q' hdel _
    exact absurd hdel (by simp [gDeleteScan])
  | cons cur rest ih =>
    intro taskID A q' hdel hinv
    obtain ⟨hc, hm⟩ := hinv
    rw [nodes_cons, cums, gRemaining_cons] at hc
    simp only [List.cons.injEq] at hc
    simp only [gDeleteScan] at hdel
    by_cases hid : cur.node.TaskID = taskID
    · rw [if_pos hid] at hdel
      cases rest with
      | nil =>
        have hq' : q' = [] := by simpa using hdel.symm
        subst hq'
        exact ⟨rfl, fun x hx => absurd hx (List.not_mem_nil x)⟩
      | cons nxt rest2 =>
        have hq' : q' = { nxt with
            node := { nxt.node with Delay := nxt.node.Delay + cur.node.Delay } } :: rest2 := by
          simpa using hdel.symm
        subst hq'
        rw [nodes_cons, cums, gRemaining_cons] at hc
        obtain ⟨h1, h2, h3⟩ := by
          simpa only [List.cons.injEq] using hc
        constructor
        · rw [nodes_cons, cums, gRemaining_cons]
          have k : A + (nxt.node.Delay + cur.node.Delay) =
              A + cur.node.Delay + nxt.node.Delay := by omega
          rw [k]
          simp only [List.cons.injEq]
          exact ⟨h2, h3⟩
        · intro x hx
          rcases List.mem_cons.mp hx with rfl | hx
          · exact hm nxt (List.mem_cons_of_mem cur (List.mem_cons_self nxt rest2))
          · exact hm x (List.mem_cons_of_mem cur (List.mem_cons_of_mem nxt hx))
    · rw [if_neg hid] at hdel
      cases hrec : gDeleteScan rest taskID with
      | none =>
        rw [hrec] at hdel
        exact absurd hdel (by simp)
      | some r =>
        rw [hrec] at hdel
        have hq' : q' = cur :: r := by simpa using hdel.symm
        subst hq'
        have hinv2 : GInvAux rest (A + cur.node.Delay) :=
          ⟨hc.2, fun x hx => hm x (List.mem_cons_of_mem cur hx)⟩
        obtain ⟨hr1, hr2⟩ := ih taskID (A + cur.node.Delay) r hrec hinv2
        constructor
        · rw [nodes_cons, cums, gRemaining_cons, hr1]
          simp only [List.cons.injEq]
          exact ⟨hc.1, trivial⟩
        · intro x hx
          rcases List.mem_cons.mp hx with rfl | hx
          · exact hm x (List.mem_cons_self x rest)
          · exact hr2 x hx

theorem gRemaining_map_bump (t : List GNode) :
    gRemaining (t.map (fun g => { g with effTicks := g.effTicks + 1 })) =
      (gRemaining t).map (fun c => c - 1) := by
  induction t with
  | nil => rfl
  | cons a t ih =>
    rw [List.map_cons, gRemaining_cons, gRemaining_cons, List.map_cons, ih]
    congr 1

theorem gTick_inv (q : List GNode) (hinv : GInvAux q 0) : GInvAux (gTick q) 0 := by
  cases q with
  | nil => exact hinv
  | cons h t =>
    obtain ⟨hc, hm⟩ := hinv
    rw [nodes_cons, cums, gRemaining_cons, Nat.zero_add] at hc
    simp only [List.cons.injEq] at hc
    obtain ⟨h1, h2⟩ := hc
    rw [gTick]
    by_cases hpos : 0 < h.node.Delay
    · rw [if_pos hpos]
      have hall : ∀ x ∈ t, 1 ≤ x.requested - x.effTicks := by
        intro x hx
        have hmem : x.requested - x.effTicks ∈ gRemaining t :=
          List.mem_map_of_mem _ hx
        rw [← h2] at hmem
        have := cums_ge (nodes t) h.node.Delay _ hmem
        omega
      constructor
      · have e1 : nodes
            ({ h with
                node := { h.node with Delay := h.node.Delay - 1 },
                effTicks := h.effTicks + 1 } ::
              t.map (fun g => { g with effTicks := g.effTicks + 1 })) =
            { h.node with Delay := h.node.Delay - 1 } :: nodes t := by
          rw [nodes_cons, nodes_map_bumpEff]
        rw [e1, cums, Nat.zero_add, gRemaining_cons, gRemaining_map_bump, ← h2,
          ← cums_sub_one (nodes t) h.node.Delay (by omega)]
        simp only [List.cons.injEq]
        constructor
        · show h.node.Delay - 1 = h.requested - (h.effTicks + 1)
          omega
        · trivial
      · intro x hx
        rcases List.mem_cons.mp hx with rfl | hx
        · show h.effTicks + 1 ≤ h.requested
          omega
        · obtain ⟨g, hg, rfl⟩ := List.mem_map.mp hx
          have hb := hall g hg
          show g.effTicks + 1 ≤ g.requested
          omega
    · rw [if_neg hpos]
      refine ⟨?_, hm⟩
      rw [nodes_cons, cums, gRemaining_cons, Nat.zero_add]
      simp only [List.cons.injEq]
      exact ⟨h1, h2⟩

theorem deleteTask_eq_none (s : SchedState) (tid : ℕ) (a : TaskNode) (b : List TaskNode)
    (hsq : s.g_TaskListHead = a :: b) (hscan : deleteScan s.g_TaskListHead tid = none) :
    SCH_Delete_Task s tid = ({ s with g_ErrorCode := ERROR_SCH_TASK_NOT_FOUND }, false) := by
  rw [hsq] at hscan
  simp only [SCH_Delete_Task, hsq, hscan]

theorem deleteTask_eq_some (s : SchedState) (tid : ℕ) (a : TaskNode) (b q' : List TaskNode)
    (hsq : s.g_TaskListHead = a :: b) (hscan : deleteScan s.g_TaskListHead tid = some q') :
    SCH_Delete_Task s tid = ({ s with g_TaskListHead := q' }, true) := by
  rw [hsq] at hscan
  simp only [SCH_Delete_Task, hsq, hscan]

theorem gApplyOp_step (gs : GState) (s : SchedState) (op : SchedOp)
    (hq : nodes gs.queue = s.g_TaskListHead) (hid : gs.nextTaskID = s.g_NextTaskID)
    (hinv : GInvAux gs.queue 0) :
    nodes (gApplyOp gs op).queue = (applyOp s op).g_TaskListHead ∧
    (gApplyOp gs op).nextTaskID = (applyOp s op).g_NextTaskID ∧
    GInvAux (gApplyOp gs op).queue 0 := by
  obtain ⟨gqueue, gnid⟩ := gs
  cases op with
  | add p d per a =>
    simp only [gApplyOp, applyOp, SCH_Add_Task]
    by_cases hp : p = 0
    · rw [if_pos hp, if_pos hp]
      exact ⟨hq, hid, hinv⟩
    · rw [if_neg hp, if_neg hp]
      by_cases ha : a = false
      · rw [if_pos ha, if_pos ha]
        exact ⟨hq, hid, hinv⟩
      · rw [if_neg ha, if_neg ha]
        refine ⟨?_, ?_, gInsertNode_inv p d per gnid gqueue hinv⟩
        · show nodes (gInsertNode gqueue p d per gnid) = _
          rw [nodes_gInsertNode]
          show insertNode (nodes gqueue) p d per gnid =
            insertNode s.g_TaskListHead p d per s.g_NextTaskID
          have hq' : nodes gqueue = s.g_TaskListHead := hq
          have hid' : gnid = s.g_NextTaskID := hid
          rw [hq', hid']
        · show (gnid + 1) % UINT32_MOD = (s.g_NextTaskID + 1) % UINT32_MOD
          have hid' : gnid = s.g_NextTaskID := hid
          rw [hid']
  | del tid =>
    cases gqueue with
    | nil =>
      have hsq : s.g_TaskListHead = [] := by rw [← hq]; rfl
      have hreal : applyOp s (.del tid) =
          { s with g_ErrorCode := ERROR_SCH_CANNOT_DELETE_TASK } := by
        show (SCH_Delete_Task s tid).1 = _
        rw [deleteTask_empty s tid hsq]
      rw [hreal]
      exact ⟨hq, hid, hinv⟩
    | cons g0 gt =>
      have hsq : s.g_TaskListHead = g0.node :: nodes gt := by rw [← hq]; rfl
      have hscan := nodes_gDeleteScan tid (g0 :: gt)
      cases hdel : gDeleteScan (g0 :: gt) tid with
      | none =>
        have hrs : deleteScan s.g_TaskListHead tid = none := by
          rw [← hq]
          show deleteScan (nodes (g0 :: gt)) tid = none
          rw [hscan, hdel]
          rfl
        have hreal : applyOp s (.del tid) =
            { s with g_ErrorCode := ERROR_SCH_TASK_NOT_FOUND } := by
          show (SCH_Delete_Task s tid).1 = _
          rw [deleteTask_eq_none s tid g0.node (nodes gt) hsq hrs]
        have hghost : gApplyOp ⟨g0 :: gt, gnid⟩ (.del tid) = ⟨g0 :: gt, gnid⟩ := by
          simp only [gApplyOp, hdel]
        rw [hreal, hghost]
        exact ⟨hq, hid, hinv⟩
      | some gq' =>
        have hrs : deleteScan s.g_TaskListHead tid = some (nodes gq') := by
          rw [← hq]
          show deleteScan (nodes (g0 :: gt)) tid = some (nodes gq')
          rw [hscan, hdel]
          rfl
        have hreal : applyOp s (.del tid) = { s with g_TaskListHead := nodes gq' } := by
          show (SCH_Delete_Task s tid).1 = _
          rw [deleteTask_eq_some s tid g0.node (nodes gt) (nodes gq') hsq hrs]
        have hghost : gApplyOp ⟨g0 :: gt, gnid⟩ (.del tid) = ⟨gq', gnid⟩ := by
          simp only [gApplyOp, hdel]
        rw [hreal, hghost]
        exact ⟨rfl, hid, gDeleteScan_inv (g0 :: gt) tid 0 gq' hdel hinv⟩
  | tick =>
    refine ⟨?_, ?_, gTick_inv gqueue hinv⟩
    · show nodes (gTick gqueue) = (SCH_Update s).g_TaskListHead
      cases gqueue with
      | nil =>
        have hsq : s.g_TaskListHead = [] := by rw [← hq]; rfl
        simp only [SCH_Update, hsq, gTick]
        rfl
      | cons g0 gt =>
        have hsq : s.g_TaskListHead = g0.node :: nodes gt := by rw [← hq]; rfl
        simp only [SCH_Update, hsq, gTick]
        by_cases hpos : 0 < g0.node.Delay
        · rw [if_pos hpos, if_pos hpos, nodes_cons, nodes_map_bumpEff]
        · rw [if_neg hpos, if_neg hpos, nodes_cons]
    · show gnid = (SCH_Update s).g_NextTaskID
      exact hid

theorem gRun_corresponds :
    ∀ (ops : List SchedOp) (gs : GState) (s : SchedState),
      nodes gs.queue = s.g_TaskListHead → gs.nextTaskID = s.g_NextTaskID →
      GInvAux gs.queue 0 →
      nodes (ops.foldl gApplyOp gs).queue = (ops.foldl applyOp s).g_TaskListHead ∧
      (ops.foldl gApplyOp gs).nextTaskID = (ops.foldl applyOp s).g_NextTaskID ∧
      GInvAux (ops.foldl gApplyOp gs).queue 0 := by
  intro ops
  induction ops with
  | nil =>
    intro gs s h1 h2 h3
    exact ⟨h1, h2, h3⟩
  | cons op rest ih =>
    intro gs s h1 h2 h3
    obtain ⟨k1, k2, k3⟩ := gApplyOp_step gs s op h1 h2 h3
    rw [List.foldl_cons, List.foldl_cons]
    exact ih (gApplyOp gs op) (applyOp s op) k1 k2 k3

/-! ## Claim C1: the delta-queue invariant -/

/-- Claim C1 (counterexample): after AddTask(delay 0), AddTask(delay 5) and
one Tick, one tick has elapsed since both registrations, yet the second
record's cumulative relative delay is still 5 and not max (5 - 1) 0 = 4: a
tick arriving while the head is already due (delay 0, awaiting dispatch)
moves no node, so "requested absolute delay minus ticks elapsed since
registration, floored at zero" fails on reachable states. -/
theorem delta_queue_elapsed_cx :
    runOps [SchedOp.add 1 0 0 true, SchedOp.add 1 5 0 true, SchedOp.tick] =
      ⟨[⟨1, 0, 0, 1⟩, ⟨1, 5, 0, 2⟩], 1, 3, 0⟩ ∧
    cums [⟨1, 0, 0, 1⟩, ⟨1, 5, 0, 2⟩] 0 = [0, 5] ∧ (5 : ℕ) - 1 ≠ 5 := by
  decide

/-- Claim C1 (corrected, amended): for every state reachable from SCH_Init
by any sequence of AddTask, DeleteTask and Tick operations, the queue is the
node-projection of the ghost run, and walking the queue and summing relative
delays up to each record (`cums ... 0`) reproduces, for every record, its
originally requested absolute delay minus the EFFECTIVE ticks elapsed since
its registration — where a tick is effective exactly when the head's delay
was positive, ticks absorbed by an already-due head advancing nothing (the
ghost `effTicks` field counts precisely those by construction of `gTick`);
the effective-tick count never exceeds the requested delay, so no flooring
is needed. The invariant is restored after every insert, delete and
tick-decrement, which is the content of the underlying step lemmas. -/
theorem delta_queue_ghost_invariant (ops : List SchedOp) :
    nodes (gRunOps ops).queue = (runOps ops).g_TaskListHead ∧
    cums (runOps ops).g_TaskListHead 0 = gRemaining (gRunOps ops).queue ∧
    ∀ g ∈ (gRunOps ops).queue, g.effTicks ≤ g.requested := by
  obtain ⟨h1, h2, h3⟩ := gRun_corresponds ops ⟨[], 1⟩ SCH_Init rfl rfl ⟨rfl, by simp⟩
  refine ⟨h1, ?_, h3.2⟩
  show cums (List.foldl applyOp SCH_Init ops).g_TaskListHead 0 =
    gRemaining (List.foldl gApplyOp ⟨[], 1⟩ ops).queue
  rw [← h1]
  exact h3.1

/-! ## Dispatch lemmas -/

theorem not_mem_ids_dispatchBody (h : TaskNode) (t : List TaskNode) (a : Bool) (x : ℕ)
    (hx1 : x ≠ h.TaskID) (hx2 : x ∉ ids t) : x ∉ ids (dispatchBody h t a) := by
  rw [dispatchBody]
  by_cases hp : 0 < h.Period
  · rw [if_pos hp]
    cases a with
    | false => simpa using hx2
    | true =>
      simp only [if_pos]
      intro hmem
      rcases (mem_ids_insertNode_iff t h.pTask h.Period h.Period h.TaskID x).mp
        (by simpa using hmem) with rfl | hm
      · exact hx1 rfl
      · exact hx2 hm
  · rw [if_neg hp]
    exact hx2

theorem not_mem_ids_dispatchLoop (x : ℕ) :
    ∀ (fuel : ℕ) (allocs : List Bool) (q : List TaskNode),
      x ∉ ids q → x ∉ ids (dispatchLoop fuel allocs q) := by
  intro fuel
  induction fuel with
  | zero =>
    intro allocs q hx
    exact hx
  | succ n ih =>
    intro allocs q hx
    cases q with
    | nil =>
      rw [dispatchLoop]
      simp [ids]
    | cons h t =>
      rw [dispatchLoop]
      by_cases hd : h.Delay = 0
      · rw [if_pos hd]
        rw [ids_cons] at hx
        simp only [List.mem_cons, not_or] at hx
        exact ih allocs.tail (dispatchBody h t (allocs.headD true))
          (not_mem_ids_dispatchBody h t (allocs.headD true) x hx.1 hx.2)
      · rw [if_neg hd]
        exact hx

/-! ## Claim C3: reschedule failure is silent -/

/-- Claim C3 (counterexample): a periodic task (period 5) whose due head is
dispatched while the reschedule malloc fails vanishes from the queue, yet
the error register still reads 0 and SCH_Get_Error_Code returns 0 — no error
is recorded, so the failure is not discoverable through the error-inspection
interface as the claim asserts. -/
theorem reschedule_failure_silent_cx :
    (SCH_Dispatch_Tasks ⟨[⟨1, 0, 5, 1⟩], 0, 2, 0⟩ [false]).g_TaskListHead = [] ∧
    (SCH_Dispatch_Tasks ⟨[⟨1, 0, 5, 1⟩], 0, 2, 0⟩ [false]).g_ErrorCode = 0 ∧
    (SCH_Get_Error_Code (SCH_Dispatch_Tasks ⟨[⟨1, 0, 5, 1⟩], 0, 2, 0⟩ [false])).2 = 0 := by
  decide

/-- Claim C3 (corrected, amended): when the re-insertion of a periodic task
fails due to allocation exhaustion the task does stop recurring (the loop
body drops it), but NO error is recorded: SCH_Dispatch_Tasks never writes
the error register (nor the tick or id counters), so this data-loss failure
is invisible to the error-inspection interface. -/
theorem dispatch_never_sets_error :
    (∀ (s : SchedState) (allocs : List Bool),
      (SCH_Dispatch_Tasks s allocs).g_ErrorCode = s.g_ErrorCode ∧
      (SCH_Dispatch_Tasks s allocs).g_CurrentTick = s.g_CurrentTick ∧
      (SCH_Dispatch_Tasks s allocs).g_NextTaskID = s.g_NextTaskID) ∧
    (∀ (h : TaskNode) (t : List TaskNode), 0 < h.Period → dispatchBody h t false = t) :=
  ⟨fun _ _ => ⟨rfl, rfl, rfl⟩, fun _ t hp => by simp [dispatchBody, hp]⟩

theorem dispatch_never_sets_error_witness :
    dispatchBody ⟨1, 0, 5, 9⟩ [] false = [] :=
  dispatch_never_sets_error.2 ⟨1, 0, 5, 9⟩ [] (by decide)

/-! ## Claim C6: dispatch postcondition per due task -/

/-- Claim C6 (confirmed): for a due record at the head of the queue when
SCH_Dispatch_Tasks runs, (a) if its period is nonzero and the reschedule
malloc succeeds, the loop body re-inserts a node with the SAME task id, the
same callback, and relative delay d placed so that the delays before it sum
to exactly Period — i.e. an absolute due time Period ticks from now; (b) if
its period is zero the body discards it, and provided its id is not carried
by another queued node, a subsequent SCH_Delete_Task with that id on the
dispatched state fails. -/
theorem dispatch_due_task_postcondition (s : SchedState) (h : TaskNode)
    (t : List TaskNode) (allocs : List Bool)
    (hq : s.g_TaskListHead = h :: t) (hdue : h.Delay = 0) :
    (0 < h.Period →
      ∃ pre d post,
        dispatchBody h t true = pre ++ ⟨h.pTask, d, h.Period, h.TaskID⟩ :: post ∧
        sumDelays pre + d = h.Period) ∧
    (h.Period = 0 → h.TaskID ∉ ids t →
      dispatchBody h t true = t ∧
      (SCH_Delete_Task (SCH_Dispatch_Tasks s allocs) h.TaskID).2 = false) := by
  constructor
  · intro hp
    obtain ⟨w1, w2⟩ := insertNode_split t h.pTask h.Period h.Period h.TaskID
      ((cums t 0).takeWhile (fun c => decide (c ≤ h.Period))).length rfl
    have hbody : dispatchBody h t true =
        insertNode t h.pTask h.Period h.Period h.TaskID := by
      simp [dispatchBody, hp]
    rw [hbody, w2]
    exact ⟨_, _, _, rfl, by omega⟩
  · intro hp0 hnm
    have hbody : ∀ a, dispatchBody h t a = t := fun a => by
      simp [dispatchBody, hp0]
    refine ⟨hbody true, ?_⟩
    have hq2 : (SCH_Dispatch_Tasks s allocs).g_TaskListHead =
        dispatchLoop (h :: t).length allocs (h :: t) := by
      show dispatchLoop s.g_TaskListHead.length allocs s.g_TaskListHead = _
      rw [hq]
    have hnotin : h.TaskID ∉ ids (SCH_Dispatch_Tasks s allocs).g_TaskListHead := by
      rw [hq2, List.length_cons, dispatchLoop, if_pos hdue, hbody]
      exact not_mem_ids_dispatchLoop h.TaskID t.length allocs.tail t hnm
    by_cases hfin : (SCH_Dispatch_Tasks s allocs).g_TaskListHead = []
    · rw [deleteTask_empty (SCH_Dispatch_Tasks s allocs) h.TaskID hfin]
    · rw [deleteTask_not_found_aux (SCH_Dispatch_Tasks s allocs) h.TaskID hfin hnotin]

theorem dispatch_due_task_postcondition_witness :
    (0 < (5 : ℕ) →
      ∃ pre d post,
        dispatchBody ⟨1, 0, 5, 7⟩ [] true = pre ++ ⟨1, d, 5, 7⟩ :: post ∧
        sumDelays pre + d = 5) ∧
    ((5 : ℕ) = 0 → (7 : ℕ) ∉ ids [] →
      dispatchBody ⟨1, 0, 5, 7⟩ [] true = [] ∧
      (SCH_Delete_Task (SCH_Dispatch_Tasks ⟨[⟨1, 0, 5, 7⟩], 0, 9, 0⟩ []) 7).2 = false) :=
  dispatch_due_task_postcondition ⟨[⟨1, 0, 5, 7⟩], 0, 9, 0⟩ ⟨1, 0, 5, 7⟩ [] [] rfl rfl

/-! ## Task-id helper lemmas -/

theorem deleteTask_nextID (s : SchedState) (tid : ℕ) :
    (SCH_Delete_Task s tid).1.g_NextTaskID = s.g_NextTaskID := by
  cases hq : s.g_TaskListHead with
  | nil => rw [deleteTask_empty s tid hq]
  | cons a b =>
    cases hscan : deleteScan s.g_TaskListHead tid with
    | none => rw [deleteTask_eq_none s tid a b hq hscan]
    | some q => rw [deleteTask_eq_some s tid a b q hq hscan]

theorem ids_deleteScan_sublist :
    ∀ (q : List TaskNode) (tid : ℕ) (q' : List TaskNode),
      deleteScan q tid = some q' → (ids q').Sublist (ids q) := by
  intro q
  induction q with
  | nil =>
    intro tid q' hdel
    simp [deleteScan] at hdel
  | cons cur rest ih =>
    intro tid q' hdel
    simp only [deleteScan] at hdel
    by_cases hid : cur.TaskID = tid
    · rw [if_pos hid] at hdel
      cases rest with
      | nil =>
        have hq' : q' = [] := by simpa using hdel.symm
        subst hq'
        exact List.nil_sublist _
      | cons nxt rest2 =>
        have hq' : q' = { nxt with Delay := nxt.Delay + cur.Delay } :: rest2 := by
          simpa using hdel.symm
        subst hq'
        exact List.Sublist.cons cur.TaskID (List.Sublist.refl (nxt.TaskID :: ids rest2))
    · rw [if_neg hid] at hdel
      cases hrec : deleteScan rest tid with
      | none =>
        rw [hrec] at hdel
        simp at hdel
      | some r =>
        rw [hrec] at hdel
        have hq' : q' = cur :: r := by simpa using hdel.symm
        subst hq'
        exact List.Sublist.cons₂ cur.TaskID (ih tid r hrec)

theorem ids_SCH_Update (s : SchedState) :
    ids (SCH_Update s).g_TaskListHead = ids s.g_TaskListHead := by
  cases hq : s.g_TaskListHead with
  | nil => simp only [SCH_Update, hq]
  | cons h t =>
    simp only [SCH_Update, hq]
    by_cases hd : 0 < h.Delay
    · rw [if_pos hd, ids_cons, ids_cons]
    · rw [if_neg hd]

theorem idInv_add_success (s : SchedState) (p d per : ℕ) (hinv : IdInv s) (hp : p ≠ 0)
    (hbound : s.g_NextTaskID + 1 < UINT32_MOD) :
    (SCH_Add_Task s p d per true).2 = s.g_NextTaskID ∧
    0 < (SCH_Add_Task s p d per true).2 ∧
    (SCH_Add_Task s p d per true).2 ∉ ids s.g_TaskListHead ∧
    (SCH_Add_Task s p d per true).1.g_NextTaskID = s.g_NextTaskID + 1 ∧
    IdInv (SCH_Add_Task s p d per true).1 := by
  obtain ⟨hA, hB, hC⟩ := hinv
  have hadd : SCH_Add_Task s p d per true =
      ({ s with
          g_TaskListHead := insertNode s.g_TaskListHead p d per s.g_NextTaskID,
          g_NextTaskID := (s.g_NextTaskID + 1) % UINT32_MOD }, s.g_NextTaskID) := by
    simp [SCH_Add_Task, hp]
  have hmod : (s.g_NextTaskID + 1) % UINT32_MOD = s.g_NextTaskID + 1 :=
    Nat.mod_eq_of_lt hbound
  have hnotmem : s.g_NextTaskID ∉ ids s.g_TaskListHead := fun hmem =>
    absurd (hA _ hmem).2 (lt_irrefl _)
  rw [hadd]
  refine ⟨rfl, hB, hnotmem, hmod, ?_, ?_, ?_⟩
  · intro x hx
    have hx' := (mem_ids_insertNode_iff s.g_TaskListHead p d per s.g_NextTaskID x).mp
      (by exact hx)
    show 0 < x ∧ x < (s.g_NextTaskID + 1) % UINT32_MOD
    rw [hmod]
    rcases hx' with rfl | hm
    · omega
    · obtain ⟨hx1, hx2⟩ := hA x hm
      omega
  · show 1 ≤ (s.g_NextTaskID + 1) % UINT32_MOD
    rw [hmod]
    omega
  · show (ids (insertNode s.g_TaskListHead p d per s.g_NextTaskID)).Nodup
    exact nodup_ids_insertNode s.g_TaskListHead p d per s.g_NextTaskID hC hnotmem

theorem idInv_add_failure (s : SchedState) (p d per : ℕ) (a : Bool)
    (hfail : p = 0 ∨ a = false) (hinv : IdInv s) :
    IdInv (SCH_Add_Task s p d per a).1 ∧
    (SCH_Add_Task s p d per a).1.g_NextTaskID = s.g_NextTaskID := by
  rw [addTask_failure_eq s p d per a hfail]
  exact ⟨hinv, rfl⟩

theorem idInv_delete (s : SchedState) (tid : ℕ) (hinv : IdInv s) :
    IdInv (SCH_Delete_Task s tid).1 ∧
    (SCH_Delete_Task s tid).1.g_NextTaskID = s.g_NextTaskID := by
  obtain ⟨hA, hB, hC⟩ := hinv
  refine ⟨?_, deleteTask_nextID s tid⟩
  cases hq : s.g_TaskListHead with
  | nil =>
    rw [deleteTask_empty s tid hq]
    exact ⟨fun x hx => hA x hx, hB, hC⟩
  | cons a b =>
    cases hscan : deleteScan s.g_TaskListHead tid with
    | none =>
      rw [deleteTask_eq_none s tid a b hq hscan]
      exact ⟨fun x hx => hA x hx, hB, hC⟩
    | some q =>
      have hsub : (ids q).Sublist (ids s.g_TaskListHead) :=
        ids_deleteScan_sublist s.g_TaskListHead tid q hscan
      rw [deleteTask_eq_some s tid a b q hq hscan]
      exact ⟨fun x hx => hA x (hsub.subset hx), hB, hC.sublist hsub⟩

theorem idInv_update (s : SchedState) (hinv : IdInv s) :
    IdInv (SCH_Update s) ∧ (SCH_Update s).g_NextTaskID = s.g_NextTaskID := by
  obtain ⟨hA, hB, hC⟩ := hinv
  refine ⟨⟨?_, hB, ?_⟩, rfl⟩
  · intro x hx
    rw [ids_SCH_Update] at hx
    exact hA x hx
  · rw [ids_SCH_Update]
    exact hC

theorem ids_dispatchBody_cases (h : TaskNode) (t : List TaskNode) (a : Bool) :
    ids (dispatchBody h t a) = ids t ∨
    (ids (dispatchBody h t a)).Perm (h.TaskID :: ids t) := by
  rw [dispatchBody]
  by_cases hp : 0 < h.Period
  · rw [if_pos hp]
    cases a with
    | false =>
      left
      simp
    | true =>
      right
      simpa using ids_insertNode_perm t h.pTask h.Period h.Period h.TaskID
  · rw [if_neg hp]
    exact Or.inl rfl

theorem dispatchLoop_idInv (N : ℕ) :
    ∀ (fuel : ℕ) (allocs : List Bool) (q : List TaskNode),
      (∀ x ∈ ids q, 0 < x ∧ x < N) → (ids q).Nodup →
      (∀ x ∈ ids (dispatchLoop fuel allocs q), 0 < x ∧ x < N) ∧
      (ids (dispatchLoop fuel allocs q)).Nodup := by
  intro fuel
  induction fuel with
  | zero =>
    intro allocs q hA hN
    exact ⟨hA, hN⟩
  | succ n ih =>
    intro allocs q hA hN
    cases q with
    | nil =>
      rw [dispatchLoop]
      exact ⟨fun x hx => absurd hx (List.not_mem_nil x), List.nodup_nil⟩
    | cons h t =>
      rw [dispatchLoop]
      by_cases hd : h.Delay = 0
      · rw [if_pos hd]
        have hA' : ∀ x ∈ ids (dispatchBody h t (allocs.headD true)), 0 < x ∧ x < N := by
          intro x hx
          rcases ids_dispatchBody_cases h t (allocs.headD true) with he | hperm
          · rw [he] at hx
            exact hA x (by rw [ids_cons]; exact List.mem_cons_of_mem _ hx)
          · rcases List.mem_cons.mp (hperm.subset hx) with rfl | hm
            · exact hA h.TaskID (by rw [ids_cons]; exact List.mem_cons_self h.TaskID (ids t))
            · exact hA x (by rw [ids_cons]; exact List.mem_cons_of_mem _ hm)
        have hN' : (ids (dispatchBody h t (allocs.headD true))).Nodup := by
          rcases ids_dispatchBody_cases h t (allocs.headD true) with he | hperm
          · rw [he]
            rw [ids_cons] at hN
            exact hN.of_cons
          · rw [hperm.nodup_iff]
            rw [ids_cons] at hN
            exact hN
        exact ih allocs.tail _ hA' hN'
      · rw [if_neg hd]
        exact ⟨hA, hN⟩

theorem idInv_dispatch (s : SchedState) (allocs : List Bool) (hinv : IdInv s) :
    IdInv (SCH_Dispatch_Tasks s allocs) ∧
    (SCH_Dispatch_Tasks s allocs).g_NextTaskID = s.g_NextTaskID := by
  obtain ⟨hA, hB, hC⟩ := hinv
  obtain ⟨h1, h2⟩ := dispatchLoop_idInv s.g_NextTaskID s.g_TaskListHead.length allocs
    s.g_TaskListHead hA hC
  exact ⟨⟨h1, hB, h2⟩, rfl⟩

theorem assignedIds_nil_of_no_adds :
    ∀ (ops : List SchedOp) (s : SchedState),
      countSuccAdds ops = 0 → assignedIds s ops = [] := by
  intro ops
  induction ops with
  | nil =>
    intro s _
    rfl
  | cons op rest ih =>
    intro s hc
    cases op with
    | add p dd per a =>
      simp only [countSuccAdds] at hc
      simp only [assignedIds]
      by_cases hcond : p ≠ 0 ∧ a = true
      · rw [if_pos hcond] at hc
        exact absurd hc (by omega)
      · rw [if_neg hcond] at hc
        rw [if_neg hcond]
        exact ih _ (by omega)
    | del tid =>
      simp only [countSuccAdds] at hc
      simp only [assignedIds]
      exact ih _ hc
    | tick =>
      simp only [countSuccAdds] at hc
      simp only [assignedIds]
      exact ih _ hc

theorem assignedIds_bounds :
    ∀ (ops : List SchedOp) (s : SchedState),
      s.g_NextTaskID + countSuccAdds ops ≤ UINT32_MOD →
      (assignedIds s ops).Sorted (· < ·) ∧
      ∀ x ∈ assignedIds s ops, s.g_NextTaskID ≤ x ∧
        x < s.g_NextTaskID + countSuccAdds ops := by
  intro ops
  induction ops with
  | nil =>
    intro s _
    exact ⟨List.sorted_nil, fun x hx => absurd hx (List.not_mem_nil x)⟩
  | cons op rest ih =>
    intro s hb
    cases op with
    | add p dd per a =>
      by_cases hcond : p ≠ 0 ∧ a = true
      · obtain ⟨hp, ha⟩ := hcond
        subst ha
        have hcnt : countSuccAdds (SchedOp.add p dd per true :: rest) =
            1 + countSuccAdds rest := by
          simp [countSuccAdds, hp]
        have heq : assignedIds s (SchedOp.add p dd per true :: rest) =
            s.g_NextTaskID :: assignedIds (applyOp s (SchedOp.add p dd per true)) rest := by
          simp [assignedIds, hp, SCH_Add_Task]
        have hnid : (applyOp s (SchedOp.add p dd per true)).g_NextTaskID =
            (s.g_NextTaskID + 1) % UINT32_MOD := by
          simp [applyOp, SCH_Add_Task, hp]
        rw [hcnt] at hb
        rw [heq, hcnt]
        by_cases hwrap : s.g_NextTaskID + 1 < UINT32_MOD
        · have hnid' : (applyOp s (SchedOp.add p dd per true)).g_NextTaskID =
              s.g_NextTaskID + 1 := by
            rw [hnid]
            exact Nat.mod_eq_of_lt hwrap
          obtain ⟨ihs, ihb⟩ := ih (applyOp s (SchedOp.add p dd per true))
            (by rw [hnid']; omega)
          rw [hnid'] at ihb
          constructor
          · rw [List.sorted_cons]
            refine ⟨fun b hb2 => ?_, ihs⟩
            have := ihb b hb2
            omega
          · intro x hx
            rcases List.mem_cons.mp hx with rfl | hm
            · omega
            · have := ihb x hm
              omega
        · have hc0 : countSuccAdds rest = 0 := by omega
          rw [assignedIds_nil_of_no_adds rest _ hc0]
          constructor
          · exact List.sorted_singleton _
          · intro x hx
            rcases List.mem_cons.mp hx with rfl | hm
            · omega
            · exact absurd hm (List.not_mem_nil x)
      · have hfail : p = 0 ∨ a = false := by
          by_cases hp : p = 0
          · exact Or.inl hp
          · cases a with
            | true => exact absurd ⟨hp, rfl⟩ hcond
            | false => exact Or.inr rfl
        have hcnt : countSuccAdds (SchedOp.add p dd per a :: rest) =
            0 + countSuccAdds rest := by
          simp only [countSuccAdds, if_neg hcond]
        have heq : assignedIds s (SchedOp.add p dd per a :: rest) =
            assignedIds (applyOp s (SchedOp.add p dd per a)) rest := by
          simp only [assignedIds, if_neg hcond]
        have hnid : (applyOp s (SchedOp.add p dd per a)).g_NextTaskID =
            s.g_NextTaskID := by
          show (SCH_Add_Task s p dd per a).1.g_NextTaskID = s.g_NextTaskID
          rw [addTask_failure_eq s p dd per a hfail]
        rw [hcnt] at hb
        rw [heq, hcnt]
        obtain ⟨ihs, ihb⟩ := ih _ (by rw [hnid]; omega)
        refine ⟨ihs, fun x hx => ?_⟩
        have := ihb x hx
        rw [hnid] at this
        omega
    | del tid =>
      have hnid : (applyOp s (SchedOp.del tid)).g_NextTaskID = s.g_NextTaskID :=
        deleteTask_nextID s tid
      have hcnt : countSuccAdds (SchedOp.del tid :: rest) = countSuccAdds rest := by
        simp only [countSuccAdds]
      have heq : assignedIds s (SchedOp.del tid :: rest) =
          assignedIds (applyOp s (SchedOp.del tid)) rest := by
        simp only [assignedIds]
      rw [hcnt] at hb
      rw [heq, hcnt]
      obtain ⟨ihs, ihb⟩ := ih _ (by rw [hnid]; exact hb)
      refine ⟨ihs, fun x hx => ?_⟩
      have := ihb x hx
      rw [hnid] at this
      exact this
    | tick =>
      exact ih (applyOp s SchedOp.tick) hb

/-! ## Claim C9: task-id sentinel and uniqueness -/

theorem nextID_replicate_add (p d per : ℕ) (hp : p ≠ 0) :
    ∀ (n : ℕ) (s : SchedState), s.g_NextTaskID < UINT32_MOD →
      ((List.replicate n (SchedOp.add p d per true)).foldl applyOp s).g_NextTaskID =
        (s.g_NextTaskID + n) % UINT32_MOD := by
  intro n
  induction n with
  | zero =>
    intro s hs
    simp only [List.replicate_zero, List.foldl_nil, Nat.add_zero]
    exact (Nat.mod_eq_of_lt hs).symm
  | succ m ih =>
    intro s hs
    rw [List.replicate_succ, List.foldl_cons]
    have hstep : (applyOp s (SchedOp.add p d per true)).g_NextTaskID =
        (s.g_NextTaskID + 1) % UINT32_MOD := by
      simp [applyOp, SCH_Add_Task, hp]
    have hpos : 0 < UINT32_MOD := by norm_num [UINT32_MOD]
    have hlt : (applyOp s (SchedOp.add p d per true)).g_NextTaskID < UINT32_MOD := by
      rw [hstep]
      exact Nat.mod_lt _ hpos
    rw [ih (applyOp s (SchedOp.add p d per true)) hlt, hstep, Nat.mod_add_mod]
    congr 1
    omega

theorem taskID_wraps_aux :
    (runOps (List.replicate (UINT32_MOD - 1) (SchedOp.add 1 0 0 true))).g_NextTaskID = 0 := by
  have h := nextID_replicate_add 1 0 0 (by decide) (UINT32_MOD - 1) SCH_Init
    (by show (1 : ℕ) < UINT32_MOD; norm_num [UINT32_MOD])
  show ((List.replicate (UINT32_MOD - 1) (SchedOp.add 1 0 0 true)).foldl applyOp
    SCH_Init).g_NextTaskID = 0
  rw [h]
  show (1 + (UINT32_MOD - 1)) % UINT32_MOD = 0
  have : 1 + (UINT32_MOD - 1) = UINT32_MOD := by norm_num [UINT32_MOD]
  rw [this, Nat.mod_self]

/-- Behaviour of a successful SCH_Add_Task in a state whose id counter reads
0: the call still registers a task and returns id 0. -/
theorem add_at_zero_counter (s : SchedState) (h0 : s.g_NextTaskID = 0) :
    (SCH_Add_Task s 1 0 0 true).2 = 0 ∧
    (SCH_Add_Task s 1 0 0 true).1.g_TaskListHead.length =
      s.g_TaskListHead.length + 1 ∧
    0 ∈ ids (SCH_Add_Task s 1 0 0 true).1.g_TaskListHead := by
  have hadd : SCH_Add_Task s 1 0 0 true =
      ({ s with
          g_TaskListHead := insertNode s.g_TaskListHead 1 0 0 s.g_NextTaskID,
          g_NextTaskID := (s.g_NextTaskID + 1) % UINT32_MOD }, s.g_NextTaskID) := by
    simp only [SCH_Add_Task]
    rw [if_neg (by decide : ¬((1 : ℕ) = 0)), if_neg (by decide : ¬(true = false))]
  rw [hadd]
  refine ⟨h0, ?_, ?_⟩
  · show (insertNode s.g_TaskListHead 1 0 0 s.g_NextTaskID).length =
      s.g_TaskListHead.length + 1
    exact insertNode_length s.g_TaskListHead 1 0 0 s.g_NextTaskID
  · show 0 ∈ ids (insertNode s.g_TaskListHead 1 0 0 s.g_NextTaskID)
    rw [h0]
    exact (mem_ids_insertNode_iff s.g_TaskListHead 1 0 0 0 0).mpr (Or.inl rfl)

/-- Claim C9 (counterexample): the uint32 id counter wraps. After 2^32 - 1
successful registrations from a fresh scheduler the counter reads 0
(`taskID_wraps_aux`), and the next successful SCH_Add_Task really registers
a task — the queue grows by one and now carries a node with id 0 — while
returning task id 0, the reserved "no task" failure sentinel; so "id 0 is
never assigned to a real task" and "each id is strictly greater than every
previously assigned id" are false in general. -/
theorem taskID_wraps_to_zero :
    (SCH_Add_Task (runOps (List.replicate (UINT32_MOD - 1) (SchedOp.add 1 0 0 true)))
        1 0 0 true).2 = 0 ∧
    (SCH_Add_Task (runOps (List.replicate (UINT32_MOD - 1) (SchedOp.add 1 0 0 true)))
        1 0 0 true).1.g_TaskListHead.length =
      (runOps (List.replicate (UINT32_MOD - 1)
        (SchedOp.add 1 0 0 true))).g_TaskListHead.length + 1 ∧
    0 ∈ ids (SCH_Add_Task (runOps (List.replicate (UINT32_MOD - 1)
        (SchedOp.add 1 0 0 true))) 1 0 0 true).1.g_TaskListHead :=
  add_at_zero_counter (runOps (List.replicate (UINT32_MOD - 1) (SchedOp.add 1 0 0 true)))
    taskID_wraps_aux

/-- Claim C9 (corrected, amended): the id counter starts at 1 after SCH_Init
and the initial state satisfies the id invariant `IdInv` (all queued ids
positive, below the counter, and pairwise distinct). As long as the uint32
counter has not wrapped — fewer than 2^32 - 1 successful additions since
SCH_Init — every successful SCH_Add_Task returns the current counter value:
a strictly positive id, not carried by any currently-registered task, after
which the counter is exactly one larger; failed additions, deletions, ticks
and dispatches preserve the invariant and never move the counter. Along any
operation sequence with at most 2^32 - 1 successful additions, the assigned
ids are strictly increasing (hence each is strictly greater than every
previously assigned id) and all strictly positive. -/
theorem taskID_positive_increasing :
    SCH_Init.g_NextTaskID = 1 ∧ IdInv SCH_Init ∧
    (∀ (s : SchedState) (p d per : ℕ), IdInv s → p ≠ 0 →
      s.g_NextTaskID + 1 < UINT32_MOD →
      (SCH_Add_Task s p d per true).2 = s.g_NextTaskID ∧
      0 < (SCH_Add_Task s p d per true).2 ∧
      (SCH_Add_Task s p d per true).2 ∉ ids s.g_TaskListHead ∧
      (SCH_Add_Task s p d per true).1.g_NextTaskID = s.g_NextTaskID + 1 ∧
      IdInv (SCH_Add_Task s p d per true).1) ∧
    (∀ (s : SchedState) (p d per : ℕ) (a : Bool), IdInv s → p = 0 ∨ a = false →
      IdInv (SCH_Add_Task s p d per a).1 ∧
      (SCH_Add_Task s p d per a).1.g_NextTaskID = s.g_NextTaskID) ∧
    (∀ (s : SchedState) (tid : ℕ), IdInv s →
      IdInv (SCH_Delete_Task s tid).1 ∧
      (SCH_Delete_Task s tid).1.g_NextTaskID = s.g_NextTaskID) ∧
    (∀ (s : SchedState), IdInv s →
      IdInv (SCH_Update s) ∧ (SCH_Update s).g_NextTaskID = s.g_NextTaskID) ∧
    (∀ (s : SchedState) (allocs : List Bool), IdInv s →
      IdInv (SCH_Dispatch_Tasks s allocs) ∧
      (SCH_Dispatch_Tasks s allocs).g_NextTaskID = s.g_NextTaskID) ∧
    (∀ (ops : List SchedOp), countSuccAdds ops ≤ UINT32_MOD - 1 →
      (assignedIds SCH_Init ops).Sorted (· < ·) ∧
      ∀ x ∈ assignedIds SCH_Init ops, 0 < x) := by
  refine ⟨rfl, ⟨fun x hx => absurd hx (List.not_mem_nil x), le_refl 1, List.nodup_nil⟩,
    fun s p d per hinv hp hb => idInv_add_success s p d per hinv hp hb,
    fun s p d per a hinv hfail => idInv_add_failure s p d per a hfail hinv,
    fun s tid hinv => idInv_delete s tid hinv,
    fun s hinv => idInv_update s hinv,
    fun s allocs hinv => idInv_dispatch s allocs hinv,
    fun ops hcnt => ?_⟩
  have hpos : 0 < UINT32_MOD := by norm_num [UINT32_MOD]
  have hinit : SCH_Init.g_NextTaskID = 1 := rfl
  obtain ⟨hs, hbnd⟩ := assignedIds_bounds ops SCH_Init (by rw [hinit]; omega)
  refine ⟨hs, fun x hx => ?_⟩
  have := hbnd x hx
  rw [hinit] at this
  omega

theorem taskID_positive_increasing_witness :
    (SCH_Add_Task SCH_Init 1 0 0 true).2 = SCH_Init.g_NextTaskID ∧
    0 < (SCH_Add_Task SCH_Init 1 0 0 true).2 ∧
    (SCH_Add_Task SCH_Init 1 0 0 true).2 ∉ ids SCH_Init.g_TaskListHead ∧
    (SCH_Add_Task SCH_Init 1 0 0 true).1.g_NextTaskID = SCH_Init.g_NextTaskID + 1 ∧
    IdInv (SCH_Add_Task SCH_Init 1 0 0 true).1 :=
  taskID_positive_increasing.2.2.1 SCH_Init 1 0 0
    ⟨fun x hx => absurd hx (List.not_mem_nil x), le_refl 1, List.nodup_nil⟩
    (by decide) (by decide)
